import Mathlib

/-!
Shallow embedding of the expression evaluator in src/main.rs: a character
tokenizer (Tokenizer) feeding a precedence-climbing recursive-descent
evaluator (Expr). Machine integers (i32) are modelled as Int with explicit
range checks; arithmetic overflow, division by zero and exponent overflow
are modelled as a host fault (the panic of the checked debug-profile build),
a separate outcome from the recoverable ParseError. The character
predicates of the Rust char methods is_whitespace (the Unicode White_Space
property) and is_numeric (the Unicode general categories Nd, Nl and No) are
modelled by explicit code-point tables (Unicode 15.0).
The mutually recursive parser functions take a fuel argument to make the
recursion structural; sufficiency of the canonical fuel is proved below.
-/

namespace ExprEval

/-- Smallest value of the Rust i32 type. -/
def i32Min : Int := -2147483648

/-- Largest value of the Rust i32 type. -/
def i32Max : Int := 2147483647

/-- Range test for i32. -/
def i32Ok (v : Int) : Bool := decide (i32Min ≤ v) && decide (v ≤ i32Max)

/-- Checked i32 arithmetic: a value out of range is an overflow panic (none). -/
def checked (v : Int) : Option Int := if i32Ok v then some v else none

/-- Cast of an i32 value to u32, as in the Rust expression r as u32. -/
def u32_cast (r : Int) : Nat := (r % 4294967296).toNat

/-- Embedding of the Token enum of src/main.rs (the Mutiply spelling is the
spelling of the source). -/
inductive Token
  | Number (n : Int)
  | Plus
  | Minus
  | Mutiply
  | Divide
  | Power
  | LeftParen
  | RightParen
deriving DecidableEq

/-- Embedding of the ASSOC_LEFT constant. -/
def ASSOC_LEFT : Int := 0

/-- Embedding of the ASSOC_RIGHT constant. -/
def ASSOC_RIGHT : Int := 1

/-- Embedding of Token::is_operator; note that the source counts both
parentheses as operators. -/
def Token.is_operator : Token → Bool
  | .Plus | .Minus | .Mutiply | .Divide | .Power | .LeftParen | .RightParen => true
  | _ => false

/-- Embedding of Token::precedence. -/
def Token.precedence : Token → Int
  | .Plus | .Minus => 1
  | .Divide | .Mutiply => 2
  | .Power => 3
  | _ => 0

/-- Embedding of Token::assoc. -/
def Token.assoc : Token → Int
  | .Power => ASSOC_RIGHT
  | _ => ASSOC_LEFT

/-- Loop of the Rust i32::pow implementation (exponentiation by squaring)
with the checked-build overflow test on every multiplication; none is an
overflow panic. The exponent is a u32, so 33 units of fuel always suffice;
the fuel argument only makes the recursion structural. -/
def powGo : Nat → Nat → Int → Int → Option Int
  | 0, _, _, _ => none
  | fuel+1, exp, base, acc =>
    if exp % 2 = 1 then
      match checked (acc * base) with
      | none => none
      | some acc2 =>
        if exp = 1 then some acc2
        else
          match checked (base * base) with
          | none => none
          | some base2 => powGo fuel (exp / 2) base2 acc2
    else
      match checked (base * base) with
      | none => none
      | some base2 => powGo fuel (exp / 2) base2 acc

/-- Model of Rust i32::pow under the checked-build overflow semantics. -/
def i32pow (base : Int) (exp : Nat) : Option Int :=
  if exp = 0 then some 1 else powGo 33 exp base 1

/-- Embedding of Token::compute. The outer Option is the Rust return value
(none on the catch-all branch); the inner Option models the host-arithmetic
panic: overflow on addition, subtraction, multiplication and exponentiation,
and division by zero or overflowing division. -/
def Token.compute : Token → Int → Int → Option (Option Int)
  | .Plus, l, r => some (checked (l + r))
  | .Minus, l, r => some (checked (l - r))
  | .Mutiply, l, r => some (checked (l * r))
  | .Divide, l, r => some (if r = 0 then none else checked (l.tdiv r))
  | .Power, l, r => some (i32pow l (u32_cast r))
  | _, _, _ => none

/-- Value test backing is_whitespace: the 25 code points carrying the
Unicode White_Space property (Unicode 15.0). -/
def ws_val (v : Nat) : Bool :=
  v = 0x9 || v = 0xA || v = 0xB || v = 0xC || v = 0xD || v = 0x20 || v = 0x85 ||
  v = 0xA0 || v = 0x1680 || v = 0x2000 || v = 0x2001 || v = 0x2002 || v = 0x2003 ||
  v = 0x2004 || v = 0x2005 || v = 0x2006 || v = 0x2007 || v = 0x2008 || v = 0x2009 ||
  v = 0x200A || v = 0x2028 || v = 0x2029 || v = 0x202F || v = 0x205F || v = 0x3000

/-- Model of Rust char::is_whitespace: the Unicode White_Space property. -/
def is_whitespace (c : Char) : Bool := ws_val c.toNat

/-- Code-point ranges of the Unicode general categories Nd, Nl and No other
than the ASCII digits (Unicode 15.0); together with the ASCII digits this
is the set accepted by Rust char::is_numeric. -/
def numeric_ranges : List (Nat × Nat) := [
  (0xB2, 0xB3), (0xB9, 0xB9), (0xBC, 0xBE), (0x660, 0x669), (0x6F0, 0x6F9),
  (0x7C0, 0x7C9), (0x966, 0x96F), (0x9E6, 0x9EF), (0x9F4, 0x9F9), (0xA66, 0xA6F),
  (0xAE6, 0xAEF), (0xB66, 0xB6F), (0xB72, 0xB77), (0xBE6, 0xBF2), (0xC66, 0xC6F),
  (0xC78, 0xC7E), (0xCE6, 0xCEF), (0xD58, 0xD5E), (0xD66, 0xD78), (0xDE6, 0xDEF),
  (0xE50, 0xE59), (0xED0, 0xED9), (0xF20, 0xF33), (0x1040, 0x1049), (0x1090, 0x1099),
  (0x1369, 0x137C), (0x16EE, 0x16F0), (0x17E0, 0x17E9), (0x17F0, 0x17F9), (0x1810, 0x1819),
  (0x1946, 0x194F), (0x19D0, 0x19DA), (0x1A80, 0x1A89), (0x1A90, 0x1A99), (0x1B50, 0x1B59),
  (0x1BB0, 0x1BB9), (0x1C40, 0x1C49), (0x1C50, 0x1C59), (0x2070, 0x2070), (0x2074, 0x2079),
  (0x2080, 0x2089), (0x2150, 0x2182), (0x2185, 0x2189), (0x2460, 0x249B), (0x24EA, 0x24FF),
  (0x2776, 0x2793), (0x2CFD, 0x2CFD), (0x3007, 0x3007), (0x3021, 0x3029), (0x3038, 0x303A),
  (0x3192, 0x3195), (0x3220, 0x3229), (0x3248, 0x324F), (0x3251, 0x325F), (0x3280, 0x3289),
  (0x32B1, 0x32BF), (0xA620, 0xA629), (0xA6E6, 0xA6EF), (0xA830, 0xA835), (0xA8D0, 0xA8D9),
  (0xA900, 0xA909), (0xA9D0, 0xA9D9), (0xA9F0, 0xA9F9), (0xAA50, 0xAA59), (0xABF0, 0xABF9),
  (0xFF10, 0xFF19), (0x10107, 0x10133), (0x10140, 0x10178), (0x1018A, 0x1018B), (0x102E1, 0x102FB),
  (0x10320, 0x10323), (0x10341, 0x10341), (0x1034A, 0x1034A), (0x103D1, 0x103D5), (0x104A0, 0x104A9),
  (0x10858, 0x1085F), (0x10879, 0x1087F), (0x108A7, 0x108AF), (0x108FB, 0x108FF), (0x10916, 0x1091B),
  (0x109BC, 0x109BD), (0x109C0, 0x109CF), (0x109D2, 0x109FF), (0x10A40, 0x10A48), (0x10A7D, 0x10A7E),
  (0x10A9D, 0x10A9F), (0x10AEB, 0x10AEF), (0x10B58, 0x10B5F), (0x10B78, 0x10B7F), (0x10BA9, 0x10BAF),
  (0x10CFA, 0x10CFF), (0x10D30, 0x10D39), (0x10E60, 0x10E7E), (0x10F1D, 0x10F26), (0x10F51, 0x10F54),
  (0x10FC5, 0x10FCB), (0x11052, 0x1106F), (0x110F0, 0x110F9), (0x11136, 0x1113F), (0x111D0, 0x111D9),
  (0x111E1, 0x111F4), (0x112F0, 0x112F9), (0x11450, 0x11459), (0x114D0, 0x114D9), (0x11650, 0x11659),
  (0x116C0, 0x116C9), (0x11730, 0x1173B), (0x118E0, 0x118F2), (0x11950, 0x11959), (0x11C50, 0x11C6C),
  (0x11D50, 0x11D59), (0x11DA0, 0x11DA9), (0x11F50, 0x11F59), (0x11FC0, 0x11FD4), (0x12400, 0x1246E),
  (0x16A60, 0x16A69), (0x16AC0, 0x16AC9), (0x16B50, 0x16B59), (0x16B5B, 0x16B61), (0x16E80, 0x16E96),
  (0x1D2C0, 0x1D2D3), (0x1D2E0, 0x1D2F3), (0x1D360, 0x1D378), (0x1D7CE, 0x1D7FF), (0x1E140, 0x1E149),
  (0x1E2F0, 0x1E2F9), (0x1E4F0, 0x1E4F9), (0x1E8C7, 0x1E8CF), (0x1E950, 0x1E959), (0x1EC71, 0x1ECAB),
  (0x1ECAD, 0x1ECAF), (0x1ECB1, 0x1ECB4), (0x1ED01, 0x1ED2D), (0x1ED2F, 0x1ED3D), (0x1F100, 0x1F10C),
  (0x1FBF0, 0x1FBF9)]

/-- Model of Rust char::is_numeric: the ASCII digits together with every
other code point of general category Nd, Nl or No. -/
def is_numeric (c : Char) : Bool :=
  c.isDigit || numeric_ranges.any (fun p => decide (p.1 ≤ c.toNat) && decide (c.toNat ≤ p.2))

/-- Embedding of Tokenizer::consume_whitespaces: drop leading whitespace. -/
def consume_whitespaces : List Char → List Char
  | [] => []
  | c :: cs => if is_whitespace c then consume_whitespaces cs else c :: cs

/-- Accumulation loop of Tokenizer::scan_numbers: split the input into its
maximal prefix of is_numeric characters and the rest. -/
def scan_digits : List Char → List Char × List Char
  | [] => ([], [])
  | c :: cs =>
    if is_numeric c then
      let p := scan_digits cs
      (c :: p.1, p.2)
    else ([], c :: cs)

/-- Numeric value of a digit string. -/
def digitsVal (ds : List Char) : Nat := ds.foldl (fun a c => a * 10 + (c.toNat - 48)) 0

/-- Model of the str::parse call of scan_numbers for the i32 target type:
parsing fails on the empty string, on a non-digit character, and on overflow
past i32Max. Only digit strings reach it in this program, so the sign cases
of the Rust parser are not modelled. -/
def parse_i32 (ds : List Char) : Option Int :=
  if ds ≠ [] ∧ ds.all Char.isDigit ∧ (digitsVal ds : Int) ≤ i32Max then
    some ((digitsVal ds : Int))
  else none

/-- Embedding of Tokenizer::scan_numbers. -/
def scan_numbers (cs : List Char) : Option Token × List Char :=
  let p := scan_digits cs
  match parse_i32 p.1 with
  | some n => (some (.Number n), p.2)
  | none => (none, p.2)

/-- Embedding of Tokenizer::scan_operator: consume one character and map it
to its token; an unrecognized character is consumed and yields none. -/
def scan_operator : List Char → Option Token × List Char
  | [] => (none, [])
  | c :: cs =>
    (if c = '+' then some Token.Plus
     else if c = '-' then some Token.Minus
     else if c = '*' then some Token.Mutiply
     else if c = '/' then some Token.Divide
     else if c = '^' then some Token.Power
     else if c = '(' then some Token.LeftParen
     else if c = ')' then some Token.RightParen
     else none, cs)

/-- Embedding of the Iterator::next implementation on Tokenizer: skip
whitespace, then dispatch on the first remaining character. The returned
list is the state of the character cursor afterwards. -/
def tokNext (cs : List Char) : Option Token × List Char :=
  match consume_whitespaces cs with
  | [] => (none, [])
  | c :: rest => if is_numeric c then scan_numbers (c :: rest) else scan_operator (c :: rest)

/-- Embedding of the Expr parser state: the remaining characters of the
tokenizer plus the cache of the Peekable wrapper around it. peeked = some t
means the Peekable has polled the tokenizer once and holds the outcome t
(some token, or none for an exhausted or unrecognized position). The cached
none outcome is observable: it is why an unrecognized character can make
evaluation accept a prefix of the input. -/
structure Expr where
  chars : List Char
  peeked : Option (Option Token)
deriving DecidableEq

/-- Embedding of Expr::new. -/
def Expr.new (src : String) : Expr := ⟨src.toList, none⟩

/-- Token outcome returned by Peekable::peek and Peekable::next: the cached
outcome if present, otherwise the next tokenizer outcome. -/
def Expr.look (s : Expr) : Option Token :=
  match s.peeked with
  | some t => t
  | none => (tokNext s.chars).1

/-- State after Peekable::peek: polling the tokenizer fills the cache. -/
def Expr.peekS (s : Expr) : Expr :=
  match s.peeked with
  | some _ => s
  | none => ⟨(tokNext s.chars).2, some (tokNext s.chars).1⟩

/-- State after Peekable::next: a cached outcome is taken, otherwise the
tokenizer is polled; either way the cache is empty afterwards. -/
def Expr.nextS (s : Expr) : Expr :=
  match s.peeked with
  | some _ => ⟨s.chars, none⟩
  | none => ⟨(tokNext s.chars).2, none⟩

/-- Outcome of a parser call: ok and err carry the Rust Result value and the
state of self afterwards; fault is a host-arithmetic panic; noFuel is an
artifact of the fuel parameter and never occurs at sufficient fuel. -/
inductive Res
  | ok (v : Int) (s : Expr)
  | err (msg : String) (s : Expr)
  | fault
  | noFuel
deriving DecidableEq

mutual

/-- Embedding of Expr::compute_expression; its loop is expr_loop. -/
def compute_expression : Nat → Int → Expr → Res
  | 0, _, _ => .noFuel
  | fuel+1, min_prec, s =>
    match compute_atom fuel s with
    | .ok atom_l s1 => expr_loop fuel min_prec atom_l s1
    | r => r

/-- Embedding of the loop inside Expr::compute_expression; atom_l is the
accumulated left value. Peek fills the cache, so the two break branches and
the none branch return the peekS state; a consumed operator goes through
nextS on the peeked state. -/
def expr_loop : Nat → Int → Int → Expr → Res
  | 0, _, _, _ => .noFuel
  | fuel+1, min_prec, atom_l, s =>
    match s.look with
    | none => .ok atom_l s.peekS
    | some token =>
      if !token.is_operator || decide (token.precedence < min_prec) then .ok atom_l s.peekS
      else
        let next_prec := if token.assoc = ASSOC_LEFT then token.precedence + 1
          else token.precedence
        match compute_expression fuel next_prec s.peekS.nextS with
        | .ok atom_r s3 =>
          match token.compute atom_l atom_r with
          | some (some re) => expr_loop fuel min_prec re s3
          | some none => .fault
          | none => .err "Unknown expression" s3
        | r => r

/-- Embedding of Expr::compute_atom. -/
def compute_atom : Nat → Expr → Res
  | 0, _ => .noFuel
  | fuel+1, s =>
    match s.look with
    | some (.Number n) => .ok n s.peekS.nextS
    | some .LeftParen =>
      match compute_expression fuel 1 s.peekS.nextS with
      | .ok result s3 =>
        match s3.look with
        | some .RightParen => .ok result s3.nextS
        | _ => .err "Unexpected character" s3.nextS
      | r => r
    | _ => .err "Expecting a number or left paren" s.peekS

end

/-- Embedding of Expr::evaluation: parse one expression at minimum
precedence 1, then require the token stream to be exhausted. -/
def evaluation (fuel : Nat) (s : Expr) : Res :=
  match compute_expression fuel 1 s with
  | .ok result s1 =>
    if (s1.look).isSome then .err "Unexpected end of expr" s1.peekS
    else .ok result s1.peekS
  | r => r

/-- Caller-visible outcome of Expr::evaluation: Ok value, Err with the
ParseError message, host-arithmetic panic, or the out-of-fuel artifact. -/
inductive Obs
  | ok (v : Int)
  | err (msg : String)
  | fault
  | noFuel
deriving DecidableEq

/-- Observable part of a Res: the Rust caller sees the Result value only. -/
def Res.obs : Res → Obs
  | .ok v _ => .ok v
  | .err m _ => .err m
  | .fault => .fault
  | .noFuel => .noFuel

/-- Canonical fuel, proved sufficient below. -/
def evalFuel (src : String) : Nat := 2 * src.length + 4

/-- End-to-end evaluator on a source string: Expr::new followed by
Expr::evaluation, at the canonical fuel. -/
def evaluate (src : String) : Obs := (evaluation (evalFuel src) (Expr.new src)).obs

/-- Size measure for termination: remaining characters plus one for a cached
token (a cached exhausted outcome counts zero). -/
def Expr.size (s : Expr) : Nat :=
  s.chars.length + (match s.peeked with | some (some _) => 1 | _ => 0)

/-- Upper bound on the size of the state carried by an ok or err outcome. -/
def Res.stateBound : Res → Nat → Prop
  | .ok _ s, n => s.size ≤ n
  | .err _ s, n => s.size ≤ n
  | _, _ => True

/-- Predicate picking out the defensive Unknown expression outcome of the
compute_expression loop. -/
def Res.isUnknown : Res → Prop
  | .err msg _ => msg = "Unknown expression"
  | _ => False

/-! ### An abstract copy of the parser over a plain token list

The functions below mirror compute_expression, expr_loop, compute_atom and
evaluation with the character cursor and Peekable cache replaced by an
eagerly materialized token list. They exist only as a proof device: the
simulation theorem below shows the character-level parser agrees with them
on every cleanly tokenizable input, which is what makes whitespace
invariance provable once and for all renderings of a token list. -/

/-- Outcome of a token-level parser call. -/
inductive ResT
  | ok (v : Int) (ts : List Token)
  | err (msg : String) (ts : List Token)
  | fault
  | noFuel
deriving DecidableEq

mutual

/-- Token-level mirror of compute_expression. -/
def computeExprT : Nat → Int → List Token → ResT
  | 0, _, _ => .noFuel
  | fuel+1, min_prec, ts =>
    match computeAtomT fuel ts with
    | .ok atom_l ts1 => exprLoopT fuel min_prec atom_l ts1
    | r => r

/-- Token-level mirror of expr_loop. -/
def exprLoopT : Nat → Int → Int → List Token → ResT
  | 0, _, _, _ => .noFuel
  | fuel+1, min_prec, atom_l, ts =>
    match ts.head? with
    | none => .ok atom_l ts
    | some token =>
      if !token.is_operator || decide (token.precedence < min_prec) then .ok atom_l ts
      else
        let next_prec := if token.assoc = ASSOC_LEFT then token.precedence + 1
          else token.precedence
        match computeExprT fuel next_prec ts.tail with
        | .ok atom_r ts3 =>
          match token.compute atom_l atom_r with
          | some (some re) => exprLoopT fuel min_prec re ts3
          | some none => .fault
          | none => .err "Unknown expression" ts3
        | r => r

/-- Token-level mirror of compute_atom. -/
def computeAtomT : Nat → List Token → ResT
  | 0, _ => .noFuel
  | fuel+1, ts =>
    match ts.head? with
    | some (.Number n) => .ok n ts.tail
    | some .LeftParen =>
      match computeExprT fuel 1 ts.tail with
      | .ok result ts3 =>
        match ts3.head? with
        | some .RightParen => .ok result ts3.tail
        | _ => .err "Unexpected character" ts3.tail
      | r => r
    | _ => .err "Expecting a number or left paren" ts

end

/-- Token-level mirror of evaluation. -/
def evaluationT (fuel : Nat) (ts : List Token) : ResT :=
  match computeExprT fuel 1 ts with
  | .ok result ts1 =>
    if ts1.head?.isSome then .err "Unexpected end of expr" ts1
    else .ok result ts1
  | r => r

/-- Observable part of a ResT. -/
def ResT.obs : ResT → Obs
  | .ok v _ => .ok v
  | .err m _ => .err m
  | .fault => .fault
  | .noFuel => .noFuel

/-! ### Renderings of a token list as source text -/

/-- Valid source text of a single token: a number token renders as any
nonempty digit string whose value is its payload (and fits in i32); every
other token renders as its single symbol character. -/
def TokenText : Token → List Char → Prop
  | .Number n, txt => txt ≠ [] ∧ txt.all Char.isDigit = true ∧
      (digitsVal txt : Int) ≤ i32Max ∧ n = (digitsVal txt : Int)
  | .Plus, txt => txt = ['+']
  | .Minus, txt => txt = ['-']
  | .Mutiply, txt => txt = ['*']
  | .Divide, txt => txt = ['/']
  | .Power, txt => txt = ['^']
  | .LeftParen, txt => txt = ['(']
  | .RightParen, txt => txt = [')']

/-- Boundary condition after a token text: a digit string must not run into
a following digit, otherwise the tokenizer would merge the two numbers. -/
def numBoundary : Token → List Char → Prop
  | .Number _, cs => ∀ c, cs.head? = some c → c.isDigit = false
  | _, _ => True

/-- The relation between a token list and the source texts that tokenize to
exactly it: tokens rendered in order, with arbitrary whitespace inserted
anywhere between them (and before and after). -/
inductive Rendering : List Token → List Char → Prop
  | nil : Rendering [] []
  | ws (c : Char) (cs : List Char) (ts : List Token) : c.isWhitespace = true →
      Rendering ts cs → Rendering ts (c :: cs)
  | tok (t : Token) (txt cs : List Char) (ts : List Token) : TokenText t txt →
      numBoundary t cs → Rendering ts cs → Rendering (t :: ts) (txt ++ cs)

/-- Correspondence between a character-level parser state and the list of
tokens it still has to deliver. -/
def Corr (s : Expr) (ts : List Token) : Prop :=
  match s.peeked with
  | none => Rendering ts s.chars
  | some (some t) => ∃ ts2, ts = t :: ts2 ∧ Rendering ts2 s.chars
  | some none => ts = [] ∧ s.chars = []

/-- Relation between character-level and token-level outcomes: same result,
with corresponding continuation states on ok. -/
def ResRel : Res → ResT → Prop
  | .ok v s, .ok w ts => v = w ∧ Corr s ts
  | .err m _, .err m2 _ => m = m2
  | .fault, .fault => True
  | .noFuel, .noFuel => True
  | _, _ => False

example : evaluate "2 + 3 * 4" = .ok 14 := by decide
example : evaluate "(2 + 3) * 4" = .ok 20 := by decide
example : evaluate "8 - 4 - 2" = .ok 2 := by decide
example : evaluate "2 ^ 3 ^ 2" = .ok 512 := by decide
example : evaluate "7 / 2" = .ok 3 := by decide
example : evaluate "(0 - 7) / 2" = .ok (-3) := by decide
example : evaluate "1@2" = .ok 1 := by decide
example : evaluate "1 ^ (0 - 1)" = .ok 1 := by decide
example : evaluate "()" = .err "Expecting a number or left paren" := by decide
example : evaluate "1 +" = .err "Expecting a number or left paren" := by decide
example : evaluate "(1 + 2" = .err "Unexpected character" := by decide
example : evaluate "1 2" = .err "Unexpected end of expr" := by decide
example : evaluate "" = .err "Expecting a number or left paren" := by decide
example : evaluate "   " = .err "Expecting a number or left paren" := by decide
example : evaluate "2147483648" = .err "Expecting a number or left paren" := by decide
example : evaluate "83 - 5 + 3 * 10 + (83 - 73) / 5 + 35" = .ok 145 := by decide
example : evaluate "1+2" = .ok 3 := by decide
example : evaluate " 1 + 2 " = .ok 3 := by decide
example : evaluate "2 ^ (0 - 1)" = .fault := by decide
example : evaluate "1 / 0" = .fault := by decide

/-! ## Tokenizer consumption lemmas -/

theorem consume_whitespaces_length (cs : List Char) :
    (consume_whitespaces cs).length ≤ cs.length := by
  induction cs with
  | nil => simp [consume_whitespaces]
  | cons c cs ih =>
    by_cases h : is_whitespace c
    · simp only [consume_whitespaces, h, if_true]
      exact le_trans ih (by simp)
    · simp [consume_whitespaces, h]

theorem scan_digits_append (cs : List Char) :
    (scan_digits cs).1 ++ (scan_digits cs).2 = cs := by
  induction cs with
  | nil => simp [scan_digits]
  | cons c cs ih =>
    by_cases h : is_numeric c
    · simp [scan_digits, h, ih]
    · simp [scan_digits, h]

theorem scan_digits_length (cs : List Char) :
    (scan_digits cs).2.length + (scan_digits cs).1.length = cs.length := by
  conv_rhs => rw [← scan_digits_append cs]
  simp [List.length_append]
  omega

theorem scan_numbers_snd (cs : List Char) : (scan_numbers cs).2 = (scan_digits cs).2 := by
  unfold scan_numbers
  cases h : parse_i32 (scan_digits cs).1 <;> simp [h]

theorem scan_digits_cons_digit (c : Char) (cs : List Char) (h : is_numeric c = true) :
    scan_digits (c :: cs) = (c :: (scan_digits cs).1, (scan_digits cs).2) := by
  simp [scan_digits, h]

theorem tokNext_length_le (cs : List Char) : (tokNext cs).2.length ≤ cs.length := by
  unfold tokNext
  cases hw : consume_whitespaces cs with
  | nil => simp
  | cons c rest =>
    have hlen : (c :: rest).length ≤ cs.length := by
      rw [← hw]; exact consume_whitespaces_length cs
    by_cases hd : is_numeric c
    · simp only [hd, if_true]
      have h2 := scan_digits_length (c :: rest)
      rw [scan_numbers_snd]
      omega
    · simp only [hd, if_false]
      unfold scan_operator
      simp at hlen ⊢
      omega

theorem tokNext_some_length (cs : List Char) (t : Token)
    (h : (tokNext cs).1 = some t) : (tokNext cs).2.length < cs.length := by
  unfold tokNext at h ⊢
  cases hw : consume_whitespaces cs with
  | nil => rw [hw] at h; simp at h
  | cons c rest =>
    have hlen : (c :: rest).length ≤ cs.length := by
      rw [← hw]; exact consume_whitespaces_length cs
    by_cases hd : is_numeric c
    · simp only [hd, if_true]
      have h2 := scan_digits_length (c :: rest)
      have h3 := scan_digits_cons_digit c rest hd
      rw [scan_numbers_snd, h3]
      rw [h3] at h2
      simp at h2 hlen ⊢
      omega
    · simp only [hd, if_false]
      unfold scan_operator
      simp at hlen ⊢
      omega

/-! ## Size measure on parser states -/

theorem size_peekS (s : Expr) : s.peekS.size ≤ s.size := by
  unfold Expr.peekS Expr.size
  cases hp : s.peeked with
  | some t => simp [hp]
  | none =>
    cases ht : (tokNext s.chars).1 with
    | none =>
      simp only [hp, ht]
      have := tokNext_length_le s.chars
      omega
    | some t =>
      simp only [hp, ht]
      have := tokNext_some_length s.chars t ht
      omega

theorem look_peekS (s : Expr) : s.peekS.look = s.look := by
  unfold Expr.peekS Expr.look
  cases hp : s.peeked <;> simp [hp]

theorem size_nextS_le (s : Expr) : s.nextS.size ≤ s.size := by
  unfold Expr.nextS Expr.size
  cases hp : s.peeked with
  | some t => cases t <;> simp [hp]
  | none =>
    simp only [hp]
    have := tokNext_length_le s.chars
    omega

theorem size_nextS_lt (s : Expr) (t : Token) (h : s.look = some t) :
    s.nextS.size < s.size := by
  unfold Expr.look at h
  unfold Expr.nextS Expr.size
  cases hp : s.peeked with
  | some u =>
    rw [hp] at h
    subst h
    simp [hp]
  | none =>
    rw [hp] at h
    simp only [hp]
    have := tokNext_some_length s.chars t h
    omega

theorem size_peekS_nextS_lt (s : Expr) (t : Token) (h : s.look = some t) :
    s.peekS.nextS.size < s.size := by
  have h1 : s.peekS.look = some t := by rw [look_peekS]; exact h
  exact lt_of_lt_of_le (size_nextS_lt s.peekS t h1) (size_peekS s)

/-! ## Unfolding equations of the parser at successor fuel -/

theorem compute_expression_succ (fuel : Nat) (min_prec : Int) (s : Expr) :
    compute_expression (fuel+1) min_prec s =
      match compute_atom fuel s with
      | .ok atom_l s1 => expr_loop fuel min_prec atom_l s1
      | r => r := rfl

theorem expr_loop_succ (fuel : Nat) (min_prec atom_l : Int) (s : Expr) :
    expr_loop (fuel+1) min_prec atom_l s =
      match s.look with
      | none => .ok atom_l s.peekS
      | some token =>
        if !token.is_operator || decide (token.precedence < min_prec) then .ok atom_l s.peekS
        else
          let next_prec := if token.assoc = ASSOC_LEFT then token.precedence + 1
            else token.precedence
          match compute_expression fuel next_prec s.peekS.nextS with
          | .ok atom_r s3 =>
            match token.compute atom_l atom_r with
            | some (some re) => expr_loop fuel min_prec re s3
            | some none => .fault
            | none => .err "Unknown expression" s3
          | r => r := rfl

theorem compute_atom_succ (fuel : Nat) (s : Expr) :
    compute_atom (fuel+1) s =
      match s.look with
      | some (.Number n) => .ok n s.peekS.nextS
      | some .LeftParen =>
        match compute_expression fuel 1 s.peekS.nextS with
        | .ok result s3 =>
          match s3.look with
          | some .RightParen => .ok result s3.nextS
          | _ => .err "Unexpected character" s3.nextS
        | r => r
      | _ => .err "Expecting a number or left paren" s.peekS := rfl

/-! ## The parser never grows the size of its state -/

theorem stateBound_mono {r : Res} {m n : Nat} (h : r.stateBound m) (hmn : m ≤ n) :
    r.stateBound n := by
  cases r with
  | ok v s => exact le_trans h hmn
  | err msg s => exact le_trans h hmn
  | fault => trivial
  | noFuel => trivial

theorem parser_size_mono (fuel : Nat) :
    (∀ s, (compute_atom fuel s).stateBound s.size) ∧
    (∀ min_prec atom_l s, (expr_loop fuel min_prec atom_l s).stateBound s.size) ∧
    (∀ min_prec s, (compute_expression fuel min_prec s).stateBound s.size) := by
  induction fuel with
  | zero => exact ⟨fun s => trivial, fun p a s => trivial, fun p s => trivial⟩
  | succ fuel ih =>
    obtain ⟨ihA, ihL, ihE⟩ := ih
    refine ⟨fun s => ?_, fun p a s => ?_, fun p s => ?_⟩
    · rw [compute_atom_succ]
      cases hl : s.look with
      | none => exact size_peekS s
      | some t =>
        cases t with
        | Number n => exact le_trans (size_nextS_le s.peekS) (size_peekS s)
        | LeftParen =>
          have hXs : s.peekS.nextS.size < s.size := size_peekS_nextS_lt s .LeftParen hl
          have hE := ihE 1 s.peekS.nextS
          cases he : compute_expression fuel 1 s.peekS.nextS with
          | ok v s3 =>
            rw [he] at hE
            dsimp only
            cases h3 : s3.look with
            | some t2 =>
              cases t2 <;>
                exact le_trans (size_nextS_le s3) (le_trans hE (le_of_lt hXs))
            | none => exact le_trans (size_nextS_le s3) (le_trans hE (le_of_lt hXs))
          | err m s3 =>
            rw [he] at hE
            exact le_trans hE (le_of_lt hXs)
          | fault => trivial
          | noFuel => trivial
        | Plus => exact size_peekS s
        | Minus => exact size_peekS s
        | Mutiply => exact size_peekS s
        | Divide => exact size_peekS s
        | Power => exact size_peekS s
        | RightParen => exact size_peekS s
    · rw [expr_loop_succ]
      cases hl : s.look with
      | none => exact size_peekS s
      | some token =>
        dsimp only
        split
        · exact size_peekS s
        · have hXs : s.peekS.nextS.size < s.size := size_peekS_nextS_lt s token hl
          have hE := ihE (if token.assoc = ASSOC_LEFT then token.precedence + 1
            else token.precedence) s.peekS.nextS
          cases he : compute_expression fuel (if token.assoc = ASSOC_LEFT then
              token.precedence + 1 else token.precedence) s.peekS.nextS with
          | ok atom_r s3 =>
            rw [he] at hE
            dsimp only
            cases hc : token.compute a atom_r with
            | some o =>
              cases o with
              | some re =>
                exact stateBound_mono (ihL p re s3)
                  (le_trans hE (le_of_lt hXs))
              | none => trivial
            | none => exact le_trans hE (le_of_lt hXs)
          | err m s3 =>
            rw [he] at hE
            exact le_trans hE (le_of_lt hXs)
          | fault => trivial
          | noFuel => trivial
    · rw [compute_expression_succ]
      cases ha : compute_atom fuel s with
      | ok atom_l s1 =>
        have hA := ihA s
        rw [ha] at hA
        exact stateBound_mono (ihL p atom_l s1) hA
      | err m s1 =>
        have hA := ihA s
        rw [ha] at hA
        exact hA
      | fault => trivial
      | noFuel => trivial

/-! ## Fuel sufficiency: twice the state size plus a constant never runs out -/

theorem parser_fuel_sufficient (fuel : Nat) :
    (∀ s, 2 * s.size + 3 ≤ fuel → compute_atom fuel s ≠ .noFuel) ∧
    (∀ min_prec atom_l s, 2 * s.size + 3 ≤ fuel →
      expr_loop fuel min_prec atom_l s ≠ .noFuel) ∧
    (∀ min_prec s, 2 * s.size + 4 ≤ fuel → compute_expression fuel min_prec s ≠ .noFuel) := by
  induction fuel with
  | zero =>
    exact ⟨fun s h => absurd h (by omega), fun p a s h => absurd h (by omega),
      fun p s h => absurd h (by omega)⟩
  | succ fuel ih =>
    obtain ⟨ihA, ihL, ihE⟩ := ih
    refine ⟨fun s hf => ?_, fun p a s hf => ?_, fun p s hf => ?_⟩
    · rw [compute_atom_succ]
      cases hl : s.look with
      | none => exact fun h => Res.noConfusion h
      | some t =>
        cases t with
        | Number n => exact fun h => Res.noConfusion h
        | LeftParen =>
          have hXs : s.peekS.nextS.size < s.size := size_peekS_nextS_lt s .LeftParen hl
          have hinner := ihE 1 s.peekS.nextS (by omega)
          cases he : compute_expression fuel 1 s.peekS.nextS with
          | ok v s3 =>
            dsimp only
            cases h3 : s3.look with
            | some t2 => cases t2 <;> exact fun h => Res.noConfusion h
            | none => exact fun h => Res.noConfusion h
          | err m s3 => exact fun h => Res.noConfusion h
          | fault => exact fun h => Res.noConfusion h
          | noFuel => exact absurd he hinner
        | Plus => exact fun h => Res.noConfusion h
        | Minus => exact fun h => Res.noConfusion h
        | Mutiply => exact fun h => Res.noConfusion h
        | Divide => exact fun h => Res.noConfusion h
        | Power => exact fun h => Res.noConfusion h
        | RightParen => exact fun h => Res.noConfusion h
    · rw [expr_loop_succ]
      cases hl : s.look with
      | none => exact fun h => Res.noConfusion h
      | some token =>
        dsimp only
        split
        · exact fun h => Res.noConfusion h
        · have hXs : s.peekS.nextS.size < s.size := size_peekS_nextS_lt s token hl
          have hinner := ihE (if token.assoc = ASSOC_LEFT then token.precedence + 1
            else token.precedence) s.peekS.nextS (by omega)
          cases he : compute_expression fuel (if token.assoc = ASSOC_LEFT then
              token.precedence + 1 else token.precedence) s.peekS.nextS with
          | ok atom_r s3 =>
            dsimp only
            have hE := (parser_size_mono fuel).2.2 (if token.assoc = ASSOC_LEFT then
              token.precedence + 1 else token.precedence) s.peekS.nextS
            rw [he] at hE
            have hE2 : s3.size ≤ s.peekS.nextS.size := hE
            cases hc : token.compute a atom_r with
            | some o =>
              cases o with
              | some re => exact ihL p re s3 (by omega)
              | none => exact fun h => Res.noConfusion h
            | none => exact fun h => Res.noConfusion h
          | err m s3 => exact fun h => Res.noConfusion h
          | fault => exact fun h => Res.noConfusion h
          | noFuel => exact absurd he hinner
    · rw [compute_expression_succ]
      have hA := ihA s (by omega)
      cases ha : compute_atom fuel s with
      | ok atom_l s1 =>
        have hB := (parser_size_mono fuel).1 s
        rw [ha] at hB
        have hB2 : s1.size ≤ s.size := hB
        exact ihL p atom_l s1 (by omega)
      | err m s1 => exact fun h => Res.noConfusion h
      | fault => exact fun h => Res.noConfusion h
      | noFuel => exact absurd ha hA

theorem evaluation_no_noFuel (fuel : Nat) (s : Expr) (h : 2 * s.size + 4 ≤ fuel) :
    evaluation fuel s ≠ .noFuel := by
  unfold evaluation
  have hE := (parser_fuel_sufficient fuel).2.2 1 s h
  cases he : compute_expression fuel 1 s with
  | ok v s1 =>
    dsimp only
    split <;> exact fun h2 => Res.noConfusion h2
  | err m s1 => exact fun h2 => Res.noConfusion h2
  | fault => exact fun h2 => Res.noConfusion h2
  | noFuel => exact absurd he hE

/-! ## Fuel irrelevance: any fuel at least the needed amount gives the same result -/

theorem parser_fuel_mono (fuel : Nat) :
    (∀ s g, fuel ≤ g → compute_atom fuel s ≠ .noFuel →
      compute_atom g s = compute_atom fuel s) ∧
    (∀ min_prec atom_l s g, fuel ≤ g → expr_loop fuel min_prec atom_l s ≠ .noFuel →
      expr_loop g min_prec atom_l s = expr_loop fuel min_prec atom_l s) ∧
    (∀ min_prec s g, fuel ≤ g → compute_expression fuel min_prec s ≠ .noFuel →
      compute_expression g min_prec s = compute_expression fuel min_prec s) := by
  induction fuel with
  | zero =>
    exact ⟨fun s g hg h => absurd rfl h, fun p a s g hg h => absurd rfl h,
      fun p s g hg h => absurd rfl h⟩
  | succ fuel ih =>
    obtain ⟨ihA, ihL, ihE⟩ := ih
    refine ⟨fun s g hg h => ?_, fun p a s g hg h => ?_, fun p s g hg h => ?_⟩
    · obtain ⟨g1, rfl⟩ : ∃ g1, g = g1 + 1 := ⟨g - 1, by omega⟩
      have hg1 : fuel ≤ g1 := by omega
      rw [compute_atom_succ, compute_atom_succ]
      cases hl : s.look with
      | none => rfl
      | some t =>
        cases t with
        | Number n => rfl
        | LeftParen =>
          rw [compute_atom_succ, hl] at h
          have hne : compute_expression fuel 1 s.peekS.nextS ≠ .noFuel := by
            intro hEq
            rw [hEq] at h
            exact h rfl
          rw [ihE 1 s.peekS.nextS g1 hg1 hne]
        | Plus => rfl
        | Minus => rfl
        | Mutiply => rfl
        | Divide => rfl
        | Power => rfl
        | RightParen => rfl
    · obtain ⟨g1, rfl⟩ : ∃ g1, g = g1 + 1 := ⟨g - 1, by omega⟩
      have hg1 : fuel ≤ g1 := by omega
      rw [expr_loop_succ, expr_loop_succ]
      cases hl : s.look with
      | none => rfl
      | some token =>
        dsimp only
        by_cases hc : (!token.is_operator || decide (token.precedence < p)) = true
        · rw [if_pos hc, if_pos hc]
        · rw [if_neg hc, if_neg hc]
          rw [expr_loop_succ, hl] at h
          dsimp only at h
          rw [if_neg hc] at h
          have hne : compute_expression fuel (if token.assoc = ASSOC_LEFT then
              token.precedence + 1 else token.precedence) s.peekS.nextS ≠ .noFuel := by
            intro hEq
            rw [hEq] at h
            exact h rfl
          rw [ihE (if token.assoc = ASSOC_LEFT then token.precedence + 1
            else token.precedence) s.peekS.nextS g1 hg1 hne]
          cases he : compute_expression fuel (if token.assoc = ASSOC_LEFT then
              token.precedence + 1 else token.precedence) s.peekS.nextS with
          | ok atom_r s3 =>
            dsimp only
            rw [he] at h
            dsimp only at h
            cases hc2 : token.compute a atom_r with
            | some o =>
              cases o with
              | some re =>
                rw [hc2] at h
                dsimp only at h
                exact ihL p re s3 g1 hg1 h
              | none => rfl
            | none => rfl
          | err m s3 => rfl
          | fault => rfl
          | noFuel => exact absurd he hne
    · obtain ⟨g1, rfl⟩ : ∃ g1, g = g1 + 1 := ⟨g - 1, by omega⟩
      have hg1 : fuel ≤ g1 := by omega
      rw [compute_expression_succ, compute_expression_succ]
      rw [compute_expression_succ] at h
      have hne : compute_atom fuel s ≠ .noFuel := by
        intro hEq
        rw [hEq] at h
        exact h rfl
      rw [ihA s g1 hg1 hne]
      cases ha : compute_atom fuel s with
      | ok atom_l s1 =>
        dsimp only
        rw [ha] at h
        dsimp only at h
        exact ihL p atom_l s1 g1 hg1 h
      | err m s1 => rfl
      | fault => rfl
      | noFuel => exact absurd ha hne

theorem evaluation_fuel_mono (fuel g : Nat) (s : Expr) (hg : fuel ≤ g)
    (h : evaluation fuel s ≠ .noFuel) : evaluation g s = evaluation fuel s := by
  unfold evaluation at h ⊢
  have hne : compute_expression fuel 1 s ≠ .noFuel := by
    intro hEq
    rw [hEq] at h
    exact h rfl
  rw [(parser_fuel_mono fuel).2.2 1 s g hg hne]

/-! ## The defensive Unknown expression branch is unreachable -/

theorem compute_of_loop_operator (t : Token) (hop : t.is_operator = true)
    (hpr : 1 ≤ t.precedence) (a b : Int) : ∃ o, t.compute a b = some o := by
  cases t with
  | Number n => simp [Token.is_operator] at hop
  | LeftParen => simp [Token.precedence] at hpr
  | RightParen => simp [Token.precedence] at hpr
  | Plus => exact ⟨_, rfl⟩
  | Minus => exact ⟨_, rfl⟩
  | Mutiply => exact ⟨_, rfl⟩
  | Divide => exact ⟨_, rfl⟩
  | Power => exact ⟨_, rfl⟩

theorem parser_no_unknown (fuel : Nat) :
    (∀ s, ¬(compute_atom fuel s).isUnknown) ∧
    (∀ min_prec atom_l s, 1 ≤ min_prec → ¬(expr_loop fuel min_prec atom_l s).isUnknown) ∧
    (∀ min_prec s, 1 ≤ min_prec → ¬(compute_expression fuel min_prec s).isUnknown) := by
  induction fuel with
  | zero =>
    exact ⟨fun s h => h, fun p a s hp h => h, fun p s hp h => h⟩
  | succ fuel ih =>
    obtain ⟨ihA, ihL, ihE⟩ := ih
    refine ⟨fun s => ?_, fun p a s hp => ?_, fun p s hp => ?_⟩
    · rw [compute_atom_succ]
      cases hl : s.look with
      | none =>
        dsimp only [Res.isUnknown]
        decide
      | some t =>
        cases t with
        | Number n => exact fun h => h
        | LeftParen =>
          cases he : compute_expression fuel 1 s.peekS.nextS with
          | ok v s3 =>
            dsimp only
            cases h3 : s3.look with
            | some t2 =>
              cases t2 <;> first
                | exact fun h => h
                | (dsimp only [Res.isUnknown]; decide)
            | none =>
              dsimp only [Res.isUnknown]
              decide
          | err m s3 =>
            have hE := ihE 1 s.peekS.nextS (by norm_num)
            rw [he] at hE
            exact hE
          | fault => exact fun h => h
          | noFuel => exact fun h => h
        | Plus => dsimp only [Res.isUnknown]; decide
        | Minus => dsimp only [Res.isUnknown]; decide
        | Mutiply => dsimp only [Res.isUnknown]; decide
        | Divide => dsimp only [Res.isUnknown]; decide
        | Power => dsimp only [Res.isUnknown]; decide
        | RightParen => dsimp only [Res.isUnknown]; decide
    · rw [expr_loop_succ]
      cases hl : s.look with
      | none => exact fun h => h
      | some token =>
        dsimp only
        by_cases hc : (!token.is_operator || decide (token.precedence < p)) = true
        · rw [if_pos hc]
          exact fun h => h
        · rw [if_neg hc]
          simp only [Bool.or_eq_true, Bool.not_eq_true', decide_eq_true_eq, not_or,
            Bool.not_eq_false] at hc
          obtain ⟨hop, hpr⟩ := hc
          have hpr2 : p ≤ token.precedence := by omega
          have hnp : 1 ≤ (if token.assoc = ASSOC_LEFT then token.precedence + 1
              else token.precedence) := by
            split <;> omega
          cases he : compute_expression fuel (if token.assoc = ASSOC_LEFT then
              token.precedence + 1 else token.precedence) s.peekS.nextS with
          | ok atom_r s3 =>
            dsimp only
            cases hc2 : token.compute a atom_r with
            | some o =>
              cases o with
              | some re => exact ihL p re s3 hp
              | none => exact fun h => h
            | none =>
              obtain ⟨o, ho⟩ := compute_of_loop_operator token hop (by omega) a atom_r
              rw [ho] at hc2
              exact absurd hc2 (by simp)
          | err m s3 =>
            have hE := ihE (if token.assoc = ASSOC_LEFT then token.precedence + 1
              else token.precedence) s.peekS.nextS hnp
            rw [he] at hE
            exact hE
          | fault => exact fun h => h
          | noFuel => exact fun h => h
    · rw [compute_expression_succ]
      cases ha : compute_atom fuel s with
      | ok atom_l s1 => exact ihL p atom_l s1 hp
      | err m s1 =>
        have hA := ihA s
        rw [ha] at hA
        exact hA
      | fault => exact fun h => h
      | noFuel => exact fun h => h

/-! ## Claim theorems -/

/-- C6: in every evaluation started through evaluate, the defensive
Unknown expression ParseError is unreachable: every token consumed as an
operator inside the expr_loop has precedence at least the minimum
precedence, which is always at least 1, so it is one of the five computing
operators; parentheses, although counted as operators by is_operator, have
precedence 0 and never enter the loop. -/
theorem C6_unknown_expression_unreachable (src : String) (fuel : Nat) :
    (evaluation fuel (Expr.new src)).obs ≠ Obs.err "Unknown expression" := by
  unfold evaluation
  have hE := (parser_no_unknown fuel).2.2 1 (Expr.new src) (by norm_num)
  cases he : compute_expression fuel 1 (Expr.new src) with
  | ok v s1 =>
    dsimp only
    split
    · dsimp only [Res.obs]
      decide
    · exact fun h => Obs.noConfusion h
  | err m s1 =>
    rw [he] at hE
    intro h
    injection h with hm
    exact hE hm
  | fault => exact fun h => Obs.noConfusion h
  | noFuel => exact fun h => Obs.noConfusion h

theorem size_new (src : String) : (Expr.new src).size = src.length := rfl

/-- C7: for every finite input text, evaluation terminates: the canonical
fuel, linear in the length of the input, is never exhausted (every
recursive call strictly decreases the size measure of the remaining
input), and giving any more fuel cannot change the result. -/
theorem C7_termination (src : String) :
    evaluation (evalFuel src) (Expr.new src) ≠ .noFuel ∧
    (∀ fuel, evalFuel src ≤ fuel →
      evaluation fuel (Expr.new src) = evaluation (evalFuel src) (Expr.new src)) := by
  have hsize : 2 * (Expr.new src).size + 4 ≤ evalFuel src := by
    rw [size_new]
    unfold evalFuel
    omega
  exact ⟨evaluation_no_noFuel _ _ hsize,
    fun fuel hf => evaluation_fuel_mono _ _ _ hf (evaluation_no_noFuel _ _ hsize)⟩

/-- Witness for C7 at a concrete input and a concrete larger fuel. -/
theorem C7_termination_witness :
    evaluation (evalFuel "1+2") (Expr.new "1+2") ≠ .noFuel ∧
    evaluation 100 (Expr.new "1+2") = evaluation (evalFuel "1+2") (Expr.new "1+2") :=
  ⟨(C7_termination "1+2").1, (C7_termination "1+2").2 100 (by decide)⟩

/-- C4: evaluate applies the operator semantics table: + and - have
precedence 1 and are left-associative, * and / have precedence 2 and are
left-associative, ^ has precedence 3 and is right-associative; hence the
four example evaluations, with the explicitly parenthesized groupings
agreeing with the implicit ones and the opposite groupings differing. -/
theorem C4_operator_table :
    Token.precedence .Plus = 1 ∧ Token.precedence .Minus = 1 ∧
    Token.precedence .Mutiply = 2 ∧ Token.precedence .Divide = 2 ∧
    Token.precedence .Power = 3 ∧
    Token.assoc .Plus = ASSOC_LEFT ∧ Token.assoc .Minus = ASSOC_LEFT ∧
    Token.assoc .Mutiply = ASSOC_LEFT ∧ Token.assoc .Divide = ASSOC_LEFT ∧
    Token.assoc .Power = ASSOC_RIGHT ∧
    evaluate "2 + 3 * 4" = .ok 14 ∧ evaluate "(2 + 3) * 4" = .ok 20 ∧
    evaluate "8 - 4 - 2" = .ok 2 ∧ evaluate "(8 - 4) - 2" = .ok 2 ∧
    evaluate "8 - (4 - 2)" = .ok 6 ∧
    evaluate "2 ^ 3 ^ 2" = .ok 512 ∧ evaluate "2 ^ (3 ^ 2)" = .ok 512 ∧
    evaluate "(2 ^ 3) ^ 2" = .ok 64 := by decide

/-- C5: each of the four malformed inputs makes evaluate return a
ParseError, never an integer result. -/
theorem C5_malformed_inputs :
    evaluate "()" = .err "Expecting a number or left paren" ∧
    evaluate "1 +" = .err "Expecting a number or left paren" ∧
    evaluate "(1 + 2" = .err "Unexpected character" ∧
    evaluate "1 2" = .err "Unexpected end of expr" := by decide

/-- C9: the / operator computes host integer division truncating toward
zero (Int.tdiv) whenever the divisor is nonzero; in particular 7 / 2
evaluates to 3, and (0 - 7) / 2 evaluates to -3 rather than the -4 of
flooring division. -/
theorem C9_division_truncates :
    (∀ l r : Int, r ≠ 0 → Token.compute .Divide l r = some (checked (l.tdiv r))) ∧
    evaluate "7 / 2" = .ok 3 ∧ evaluate "(0 - 7) / 2" = .ok (-3) := by
  refine ⟨fun l r hr => ?_, by decide, by decide⟩
  simp [Token.compute, hr]

/-- Witness for C9 at a concrete division. -/
theorem C9_witness :
    Token.compute .Divide 7 2 = some (checked (Int.tdiv 7 2)) ∧ evaluate "7 / 2" = .ok 3 :=
  ⟨C9_division_truncates.1 7 2 (by decide), C9_division_truncates.2.1⟩

/-- C10: whenever compute_atom runs on a state whose next token outcome is
neither a Number nor a LeftParen (including an exhausted stream), it
returns the expected-atom ParseError, and evaluation propagates it; in
particular empty and all-whitespace sources fail this way. -/
theorem C10_atom_error :
    (∀ (fuel : Nat) (s : Expr), (∀ n : Int, s.look ≠ some (.Number n)) →
      s.look ≠ some .LeftParen →
      compute_atom (fuel+1) s = .err "Expecting a number or left paren" s.peekS) ∧
    (∀ (fuel : Nat) (s : Expr), (∀ n : Int, s.look ≠ some (.Number n)) →
      s.look ≠ some .LeftParen →
      (evaluation (fuel+1+1) s).obs = .err "Expecting a number or left paren") ∧
    evaluate "" = .err "Expecting a number or left paren" ∧
    evaluate "   " = .err "Expecting a number or left paren" ∧
    evaluate "+ 1" = .err "Expecting a number or left paren" := by
  have hatom : ∀ (fuel : Nat) (s : Expr), (∀ n : Int, s.look ≠ some (.Number n)) →
      s.look ≠ some .LeftParen →
      compute_atom (fuel+1) s = .err "Expecting a number or left paren" s.peekS := by
    intro fuel s h1 h2
    rw [compute_atom_succ]
    cases hl : s.look with
    | none => rfl
    | some t =>
      cases t with
      | Number n => exact absurd hl (h1 n)
      | LeftParen => exact absurd hl h2
      | Plus => rfl
      | Minus => rfl
      | Mutiply => rfl
      | Divide => rfl
      | Power => rfl
      | RightParen => rfl
  refine ⟨hatom, ?_, by decide, by decide, by decide⟩
  intro fuel s h1 h2
  unfold evaluation
  rw [compute_expression_succ, hatom fuel s h1 h2]
  rfl

/-- Witness for C10 at a concrete state whose next token is a right
parenthesis, and at the exhausted empty source. -/
theorem C10_witness :
    compute_atom 2 (Expr.new ")") = .err "Expecting a number or left paren"
      (Expr.new ")").peekS ∧
    (evaluation 3 (Expr.new "")).obs = .err "Expecting a number or left paren" := by
  constructor
  · refine C10_atom_error.1 1 (Expr.new ")") (fun n h => ?_) (fun h => ?_)
    · rw [show (Expr.new ")").look = some Token.RightParen from rfl] at h
      exact Token.noConfusion (Option.some.inj h)
    · rw [show (Expr.new ")").look = some Token.RightParen from rfl] at h
      exact Token.noConfusion (Option.some.inj h)
  · refine C10_atom_error.2.1 1 (Expr.new "") (fun n h => ?_) (fun h => ?_)
    · rw [show (Expr.new "").look = none from rfl] at h
      exact Option.noConfusion h
    · rw [show (Expr.new "").look = none from rfl] at h
      exact Option.noConfusion h

/-- C1 counterexample: the source text 1@2 contains the character @, which
is outside the lexical alphabet, yet evaluate silently accepts it and
returns the integer 1 (the Peekable cache stores the empty outcome produced
at the @, so the trailing-input check passes). -/
theorem C1_counterexample :
    is_whitespace '@' = false ∧ is_numeric '@' = false ∧
    '@' ∉ ['+', '-', '*', '/', '^', '(', ')'] ∧
    evaluate "1@2" = .ok 1 := by decide

/-- C1 (amended): a character outside the lexical alphabet is consumed by
the tokenizer without producing a token; evaluate does not always turn this
into a ParseError: when the bad character is reached at the position of the
trailing-input check, the value of the already parsed prefix is returned
(1@2 gives Ok 1), while in atom position a ParseError surfaces. -/
theorem C1_amended :
    (∀ (c : Char) (cs : List Char), is_whitespace c = false → is_numeric c = false →
      c ∉ ['+', '-', '*', '/', '^', '(', ')'] →
      tokNext (c :: cs) = (none, cs)) ∧
    evaluate "1@2" = .ok 1 ∧
    evaluate "@" = .err "Expecting a number or left paren" ∧
    evaluate "(1@2" = .err "Unexpected character" := by
  refine ⟨fun c cs h1 h2 h3 => ?_, by decide, by decide, by decide⟩
  simp only [List.mem_cons, not_or, List.not_mem_nil, not_false_iff, and_true] at h3
  obtain ⟨n1, n2, n3, n4, n5, n6, n7⟩ := h3
  unfold tokNext
  rw [show consume_whitespaces (c :: cs) = c :: cs by simp [consume_whitespaces, h1]]
  simp [h2, scan_operator, n1, n2, n3, n4, n5, n6, n7]

/-- Witness for C1 (amended) at the concrete character @. -/
theorem C1_amended_witness :
    tokNext ['@', '1'] = (none, ['1']) ∧ evaluate "1@2" = Obs.ok 1 :=
  ⟨C1_amended.1 '@' ['1'] (by decide) (by decide) (by decide), C1_amended.2.1⟩

/-- C3 counterexample: the input 2147483648 is one maximal nonempty run of
decimal digits, its value exceeds i32Max, the parse inside scan_numbers
fails, and no token is emitted: the failure branch is reachable. -/
theorem C3_counterexample :
    "2147483648".toList ≠ [] ∧ "2147483648".toList.all Char.isDigit = true ∧
    (digitsVal "2147483648".toList : Int) = i32Max + 1 ∧
    scan_numbers "2147483648".toList = (none, []) ∧
    evaluate "2147483648" = .err "Expecting a number or left paren" := by decide

theorem isDigit_toNat (c : Char) (h : c.isDigit = true) : 48 ≤ c.toNat ∧ c.toNat ≤ 57 := by
  simp only [Char.isDigit, Bool.and_eq_true, decide_eq_true_eq] at h
  exact ⟨h.1, h.2⟩

theorem isDigit_is_numeric (c : Char) (h : c.isDigit = true) : is_numeric c = true := by
  simp [is_numeric, h]

theorem scan_digits_of_digits (ds : List Char) : ∀ rest : List Char,
    ds.all Char.isDigit = true → (∀ c, rest.head? = some c → is_numeric c = false) →
    scan_digits (ds ++ rest) = (ds, rest) := by
  induction ds with
  | nil =>
    intro rest hd hb
    simp only [List.nil_append]
    cases rest with
    | nil => rfl
    | cons c cs =>
      have hc := hb c rfl
      simp [scan_digits, hc]
  | cons d ds ih =>
    intro rest hd hb
    simp only [List.all_cons, Bool.and_eq_true] at hd
    simp [scan_digits, isDigit_is_numeric d hd.1, ih rest hd.2 hb]

/-- C3 (amended): scan_numbers on a maximal (not followed by any is_numeric
character) nonempty run of decimal digits emits a Number token carrying the
parsed value of the run when that value fits in i32, and emits no token when
the value overflows i32Max; the failure branch of the parse is therefore
reachable through overflow, and it is also reachable without overflow,
because the accumulation runs over all is_numeric characters while the
integer parse accepts only decimal digits: the single character ½ is
accumulated and fails to parse, emitting no token. -/
theorem C3_amended :
    (∀ (ds rest : List Char), ds ≠ [] → ds.all Char.isDigit = true →
      (∀ c, rest.head? = some c → is_numeric c = false) →
      scan_numbers (ds ++ rest) =
        (if (digitsVal ds : Int) ≤ i32Max then (some (Token.Number (digitsVal ds)), rest)
         else (none, rest))) ∧
    is_numeric '½' = true ∧ ('½').isDigit = false ∧
    scan_numbers ['½'] = (none, []) := by
  refine ⟨fun ds rest h1 h2 h3 => ?_, by decide, by decide, by decide⟩
  unfold scan_numbers
  rw [scan_digits_of_digits ds rest h2 h3]
  dsimp only
  unfold parse_i32
  by_cases hle : (digitsVal ds : Int) ≤ i32Max
  · rw [if_pos ⟨h1, h2, hle⟩, if_pos hle]
  · rw [if_neg (fun hh => hle hh.2.2), if_neg hle]

/-- Witness for C3 (amended) at a concrete in-range digit run. -/
theorem C3_amended_witness :
    scan_numbers (['7'] ++ []) =
      (if (digitsVal ['7'] : Int) ≤ i32Max then (some (Token.Number (digitsVal ['7'])), [])
       else (none, ([] : List Char))) :=
  C3_amended.1 ['7'] [] (by decide) (by decide) (fun c h => by simp at h)

/-! ## Exponentiation with a negative right operand -/

theorem powGo_succ (fuel exp : Nat) (base acc : Int) :
    powGo (fuel+1) exp base acc =
      if exp % 2 = 1 then
        match checked (acc * base) with
        | none => none
        | some acc2 =>
          if exp = 1 then some acc2
          else
            match checked (base * base) with
            | none => none
            | some base2 => powGo fuel (exp / 2) base2 acc2
      else
        match checked (base * base) with
        | none => none
        | some base2 => powGo fuel (exp / 2) base2 acc := rfl

theorem checked_none_of_large (v : Int) (h : 2147483649 ≤ v.natAbs) : checked v = none := by
  unfold checked i32Ok
  rw [if_neg]
  intro hcon
  simp only [Bool.and_eq_true, decide_eq_true_eq, i32Min, i32Max] at hcon
  omega

theorem checked_some_of_small (v : Int) (h : v.natAbs ≤ 1) : checked v = some v := by
  have hok : i32Ok v = true := by
    simp only [i32Ok, Bool.and_eq_true, decide_eq_true_eq, i32Min, i32Max]
    omega
  simp [checked, hok]

theorem checked_some_inv (v w : Int) (h : checked v = some w) : w = v := by
  unfold checked at h
  split at h
  · exact (Option.some.inj h).symm
  · exact Option.noConfusion h

theorem nat_pow_odd_step (A B k : Nat) : (A * B) * (B * B) ^ k = A * B ^ (2 * k + 1) := by
  rw [← pow_two, ← pow_mul, pow_succ]
  ring

theorem nat_pow_even_step (A B k : Nat) : A * (B * B) ^ k = A * B ^ (2 * k) := by
  rw [← pow_two, ← pow_mul]

theorem powGo_overflow : ∀ (exp : Nat), 1 ≤ exp → ∀ (fuel : Nat) (base acc : Int),
    exp < 2 ^ fuel → 2 ≤ base.natAbs → 1 ≤ acc.natAbs →
    4294967296 ≤ acc.natAbs * base.natAbs ^ exp →
    powGo fuel exp base acc = none := by
  intro exp
  induction exp using Nat.strong_induction_on with
  | _ exp ih =>
    intro h1 fuel base acc hf hb ha hbig
    match fuel with
    | 0 => rfl
    | fuel+1 =>
      have h2f : (2:Nat) ^ (fuel+1) = 2 * 2 ^ fuel := by
        rw [pow_succ]
        ring
      rw [powGo_succ]
      by_cases hodd : exp % 2 = 1
      · rw [if_pos hodd]
        cases hm : checked (acc * base) with
        | none => rfl
        | some acc2 =>
          have hacc2 : acc2 = acc * base := checked_some_inv _ _ hm
          dsimp only
          by_cases h1e : exp = 1
          · exfalso
            subst h1e
            have hlarge : 4294967296 ≤ (acc * base).natAbs := by
              rw [Int.natAbs_mul]
              simpa using hbig
            rw [checked_none_of_large _ (by omega)] at hm
            exact Option.noConfusion hm
          · rw [if_neg h1e]
            cases hm2 : checked (base * base) with
            | none => rfl
            | some base2 =>
              have hbase2 : base2 = base * base := checked_some_inv _ _ hm2
              apply ih (exp / 2) (by omega) (by omega) fuel
              · omega
              · rw [hbase2, Int.natAbs_mul]
                nlinarith
              · rw [hacc2, Int.natAbs_mul]
                nlinarith
              · rw [hacc2, hbase2, Int.natAbs_mul, Int.natAbs_mul, nat_pow_odd_step,
                  show 2 * (exp / 2) + 1 = exp from by omega]
                exact hbig
      · rw [if_neg hodd]
        cases hm2 : checked (base * base) with
        | none => rfl
        | some base2 =>
          have hbase2 : base2 = base * base := checked_some_inv _ _ hm2
          apply ih (exp / 2) (by omega) (by omega) fuel
          · omega
          · rw [hbase2, Int.natAbs_mul]
            nlinarith
          · exact ha
          · rw [hbase2, Int.natAbs_mul, nat_pow_even_step,
              show 2 * (exp / 2) = exp from by omega]
            exact hbig

theorem powGo_small : ∀ (exp : Nat), 1 ≤ exp → ∀ (fuel : Nat) (base acc : Int),
    exp < 2 ^ fuel → base.natAbs ≤ 1 → acc.natAbs ≤ 1 →
    ∃ v, powGo fuel exp base acc = some v := by
  intro exp
  induction exp using Nat.strong_induction_on with
  | _ exp ih =>
    intro h1 fuel base acc hf hb ha
    match fuel with
    | 0 => exact absurd hf (by simp; omega)
    | fuel+1 =>
      have h2f : (2:Nat) ^ (fuel+1) = 2 * 2 ^ fuel := by
        rw [pow_succ]
        ring
      have hab : (acc * base).natAbs ≤ 1 := by
        rw [Int.natAbs_mul]
        simpa using Nat.mul_le_mul ha hb
      have hbb : (base * base).natAbs ≤ 1 := by
        rw [Int.natAbs_mul]
        simpa using Nat.mul_le_mul hb hb
      rw [powGo_succ]
      by_cases hodd : exp % 2 = 1
      · rw [if_pos hodd, checked_some_of_small _ hab]
        dsimp only
        by_cases h1e : exp = 1
        · rw [if_pos h1e]
          exact ⟨acc * base, rfl⟩
        · rw [if_neg h1e, checked_some_of_small _ hbb]
          dsimp only
          exact ih (exp / 2) (by omega) (by omega) fuel (base * base) (acc * base)
            (by omega) hbb hab
      · rw [if_neg hodd, checked_some_of_small _ hbb]
        dsimp only
        exact ih (exp / 2) (by omega) (by omega) fuel (base * base) acc (by omega) hbb ha

theorem u32_cast_neg (r : Int) (h1 : r < 0) (h2 : i32Min ≤ r) :
    2147483648 ≤ u32_cast r ∧ u32_cast r < 4294967296 := by
  unfold u32_cast
  unfold i32Min at h2
  omega

/-- C2 counterexample: the subexpression 0 - 1 evaluates to the negative
integer -1, and in 1 ^ (0 - 1) the ^ operator receives it as right
operand, yet the computation ends in the normal integer result 1 with no
host-arithmetic fault and no ParseError (the u32 cast turns -1 into
4294967295 and no power of 1 overflows). -/
theorem C2_counterexample :
    evaluate "(0 - 1)" = .ok (-1) ∧
    evaluate "1 ^ (0 - 1)" = .ok 1 := by decide

/-- C2 (amended): applying ^ to a negative right operand ends in a
host-arithmetic fault whenever the left operand has absolute value at
least 2 (the u32 cast makes the exponent at least 2^31, so the checked
power overflows), but for left operands -1, 0 and 1 the checked power
returns a normal integer result, as 1 ^ (0 - 1) shows. -/
theorem C2_amended :
    (∀ l r : Int, r < 0 → i32Min ≤ r → 2 ≤ l.natAbs →
      Token.compute .Power l r = some none) ∧
    (∀ l r : Int, r < 0 → i32Min ≤ r → l.natAbs ≤ 1 →
      ∃ v, Token.compute .Power l r = some (some v)) ∧
    evaluate "2 ^ (0 - 1)" = .fault ∧ evaluate "1 ^ (0 - 1)" = .ok 1 := by
  have hpow33 : (2:Nat) ^ 33 = 8589934592 := by norm_num
  refine ⟨fun l r h1 h2 hl => ?_, fun l r h1 h2 hl => ?_, by decide, by decide⟩
  · obtain ⟨hc1, hc2⟩ := u32_cast_neg r h1 h2
    show some (i32pow l (u32_cast r)) = some none
    congr 1
    unfold i32pow
    rw [if_neg (by omega)]
    apply powGo_overflow (u32_cast r) (by omega) 33 l 1 (by omega) hl (by simp)
    calc (4294967296 : Nat) = 2 ^ 32 := by norm_num
      _ ≤ 2 ^ u32_cast r := Nat.pow_le_pow_right (by norm_num) (by omega)
      _ ≤ l.natAbs ^ u32_cast r := Nat.pow_le_pow_left hl _
      _ = 1 * l.natAbs ^ u32_cast r := (one_mul _).symm
  · obtain ⟨hc1, hc2⟩ := u32_cast_neg r h1 h2
    obtain ⟨v, hv⟩ := powGo_small (u32_cast r) (by omega) 33 l 1 (by omega) hl (by simp)
    refine ⟨v, ?_⟩
    show some (i32pow l (u32_cast r)) = some (some v)
    congr 1
    unfold i32pow
    rw [if_neg (by omega), hv]

/-- Witness for C2 (amended) at the concrete operands 2 and 1 with
exponent -1. -/
theorem C2_amended_witness :
    Token.compute .Power 2 (-1) = some none ∧
    (∃ v, Token.compute .Power 1 (-1) = some (some v)) :=
  ⟨C2_amended.1 2 (-1) (by decide) (by decide) (by decide),
   C2_amended.2.1 1 (-1) (by decide) (by decide) (by decide)⟩

/-! ## Tokenizing a rendering recovers the token list -/

theorem isDigit_not_ws (c : Char) (h : c.isDigit = true) : is_whitespace c = false := by
  obtain ⟨h1, h2⟩ := isDigit_toNat c h
  unfold is_whitespace ws_val
  simp only [Bool.or_eq_false_iff, decide_eq_false_iff_not]
  omega

theorem core_ws_is_whitespace (c : Char) (h : c.isWhitespace = true) :
    is_whitespace c = true := by
  simp only [Char.isWhitespace, Bool.or_eq_true, decide_eq_true_eq] at h
  rcases h with ((h1 | h1) | h1) | h1 <;> (subst h1; decide)

theorem rendering_head_numeric (ts : List Token) (cs : List Char) (h : Rendering ts cs) :
    ∀ c, cs.head? = some c → is_numeric c = true → c.isDigit = true := by
  induction h with
  | nil => exact fun c hc _ => Option.noConfusion hc
  | ws c0 cs ts hws hr ih =>
    intro c hc hn
    rw [List.head?_cons, Option.some.injEq] at hc
    subst hc
    have hn2 : is_numeric c0 = false := by
      simp only [Char.isWhitespace, Bool.or_eq_true, decide_eq_true_eq] at hws
      rcases hws with ((h1 | h1) | h1) | h1 <;> (subst h1; decide)
    rw [hn2] at hn
    exact Bool.noConfusion hn
  | tok t txt cs ts htxt hnb hr ih =>
    intro c hc hn
    cases t with
    | Number n =>
      obtain ⟨hne, hall, _, _⟩ := htxt
      obtain ⟨d, ds2, rfl⟩ : ∃ d ds2, txt = d :: ds2 := by
        cases txt with
        | nil => exact absurd rfl hne
        | cons d ds2 => exact ⟨d, ds2, rfl⟩
      rw [List.cons_append, List.head?_cons, Option.some.injEq] at hc
      subst hc
      rw [List.all_cons, Bool.and_eq_true] at hall
      exact hall.1
    | Plus =>
      have he : txt = ['+'] := htxt
      subst he
      rw [List.singleton_append, List.head?_cons, Option.some.injEq] at hc
      subst hc
      exact absurd hn (by decide)
    | Minus =>
      have he : txt = ['-'] := htxt
      subst he
      rw [List.singleton_append, List.head?_cons, Option.some.injEq] at hc
      subst hc
      exact absurd hn (by decide)
    | Mutiply =>
      have he : txt = ['*'] := htxt
      subst he
      rw [List.singleton_append, List.head?_cons, Option.some.injEq] at hc
      subst hc
      exact absurd hn (by decide)
    | Divide =>
      have he : txt = ['/'] := htxt
      subst he
      rw [List.singleton_append, List.head?_cons, Option.some.injEq] at hc
      subst hc
      exact absurd hn (by decide)
    | Power =>
      have he : txt = ['^'] := htxt
      subst he
      rw [List.singleton_append, List.head?_cons, Option.some.injEq] at hc
      subst hc
      exact absurd hn (by decide)
    | LeftParen =>
      have he : txt = ['('] := htxt
      subst he
      rw [List.singleton_append, List.head?_cons, Option.some.injEq] at hc
      subst hc
      exact absurd hn (by decide)
    | RightParen =>
      have he : txt = [')'] := htxt
      subst he
      rw [List.singleton_append, List.head?_cons, Option.some.injEq] at hc
      subst hc
      exact absurd hn (by decide)

theorem parse_i32_of_digits (ds : List Char) (h1 : ds ≠ []) (h2 : ds.all Char.isDigit = true)
    (h3 : (digitsVal ds : Int) ≤ i32Max) : parse_i32 ds = some ((digitsVal ds : Int)) := by
  unfold parse_i32
  rw [if_pos ⟨h1, h2, h3⟩]

theorem scan_numbers_of_digits (ds cs : List Char) (h1 : ds ≠ [])
    (h2 : ds.all Char.isDigit = true) (h3 : (digitsVal ds : Int) ≤ i32Max)
    (hb : ∀ c, cs.head? = some c → is_numeric c = false) :
    scan_numbers (ds ++ cs) = (some (.Number (digitsVal ds)), cs) := by
  unfold scan_numbers
  rw [scan_digits_of_digits ds cs h2 hb]
  dsimp only
  rw [parse_i32_of_digits ds h1 h2 h3]

theorem tokNext_digits (ds cs : List Char) (h1 : ds ≠ [])
    (h2 : ds.all Char.isDigit = true) (h3 : (digitsVal ds : Int) ≤ i32Max)
    (hb : ∀ c, cs.head? = some c → is_numeric c = false) :
    tokNext (ds ++ cs) = (some (.Number (digitsVal ds)), cs) := by
  obtain ⟨d, ds2, rfl⟩ : ∃ d ds2, ds = d :: ds2 := by
    cases ds with
    | nil => exact absurd rfl h1
    | cons d ds2 => exact ⟨d, ds2, rfl⟩
  have hd : d.isDigit = true := by
    rw [List.all_cons, Bool.and_eq_true] at h2
    exact h2.1
  rw [List.all_cons, Bool.and_eq_true] at h2
  unfold tokNext
  rw [List.cons_append]
  rw [show consume_whitespaces (d :: (ds2 ++ cs)) = d :: (ds2 ++ cs) by
    simp [consume_whitespaces, isDigit_not_ws d hd]]
  dsimp only
  rw [if_pos (isDigit_is_numeric d hd)]
  rw [← List.cons_append]
  exact scan_numbers_of_digits (d :: ds2) cs h1 (by simp [List.all_cons, hd, h2.2]) h3 hb

theorem rendering_tokNext (ts : List Token) (cs : List Char) (h : Rendering ts cs) :
    (ts = [] → tokNext cs = (none, [])) ∧
    (∀ t ts2, ts = t :: ts2 → ∃ cs2, tokNext cs = (some t, cs2) ∧ Rendering ts2 cs2) := by
  induction h with
  | nil =>
    refine ⟨fun _ => rfl, fun t ts2 h0 => absurd h0 (by simp)⟩
  | ws c cs ts hws hr ih =>
    have heq : tokNext (c :: cs) = tokNext cs := by
      unfold tokNext
      rw [show consume_whitespaces (c :: cs) = consume_whitespaces cs by
        simp [consume_whitespaces, core_ws_is_whitespace c hws]]
    exact ⟨fun h0 => heq.trans (ih.1 h0), fun t ts2 h0 => by
      rw [heq]
      exact ih.2 t ts2 h0⟩
  | tok t txt cs ts htxt hnb hr ih =>
    refine ⟨fun h0 => absurd h0 (by simp), fun t2 ts2 h0 => ?_⟩
    injection h0 with h0a h0b
    subst h0a
    subst h0b
    refine ⟨cs, ?_, hr⟩
    cases t with
    | Number n =>
      obtain ⟨hne, hall, hle, hnv⟩ := htxt
      have hb2 : ∀ c, cs.head? = some c → is_numeric c = false := by
        intro c hc
        by_contra hcon
        rw [Bool.not_eq_false] at hcon
        have ha := rendering_head_numeric ts cs hr c hc hcon
        have hb := hnb c hc
        rw [ha] at hb
        exact Bool.noConfusion hb
      rw [hnv]
      exact tokNext_digits txt cs hne hall hle hb2
    | Plus =>
      have he : txt = ['+'] := htxt
      subst he
      rfl
    | Minus =>
      have he : txt = ['-'] := htxt
      subst he
      rfl
    | Mutiply =>
      have he : txt = ['*'] := htxt
      subst he
      rfl
    | Divide =>
      have he : txt = ['/'] := htxt
      subst he
      rfl
    | Power =>
      have he : txt = ['^'] := htxt
      subst he
      rfl
    | LeftParen =>
      have he : txt = ['('] := htxt
      subst he
      rfl
    | RightParen =>
      have he : txt = [')'] := htxt
      subst he
      rfl

/-! ## Correspondence between character-level states and token lists -/

theorem corr_look (s : Expr) (ts : List Token) (h : Corr s ts) : s.look = ts.head? := by
  unfold Corr at h
  unfold Expr.look
  cases hp : s.peeked with
  | none =>
    rw [hp] at h
    cases ts with
    | nil =>
      rw [(rendering_tokNext _ _ h).1 rfl]
      rfl
    | cons t ts2 =>
      obtain ⟨cs2, heq, _⟩ := (rendering_tokNext _ _ h).2 t ts2 rfl
      rw [heq]
      rfl
  | some o =>
    rw [hp] at h
    cases o with
    | some t =>
      have h2 : ∃ ts2, ts = t :: ts2 ∧ Rendering ts2 s.chars := h
      obtain ⟨ts2, rfl, _⟩ := h2
      rfl
    | none =>
      have h2 : ts = [] ∧ s.chars = [] := h
      rw [h2.1]
      rfl

theorem corr_peekS (s : Expr) (ts : List Token) (h : Corr s ts) : Corr s.peekS ts := by
  cases hp : s.peeked with
  | some o =>
    have hs : s.peekS = s := by
      unfold Expr.peekS
      rw [hp]
    rw [hs]
    exact h
  | none =>
    have h2 : Rendering ts s.chars := by
      unfold Corr at h
      rw [hp] at h
      exact h
    have hs : s.peekS = ⟨(tokNext s.chars).2, some (tokNext s.chars).1⟩ := by
      unfold Expr.peekS
      rw [hp]
    rw [hs]
    cases ts with
    | nil =>
      have heq := (rendering_tokNext _ _ h2).1 rfl
      unfold Corr
      rw [heq]
      exact ⟨rfl, rfl⟩
    | cons t ts2 =>
      obtain ⟨cs2, heq, hr2⟩ := (rendering_tokNext _ _ h2).2 t ts2 rfl
      unfold Corr
      rw [heq]
      exact ⟨ts2, rfl, hr2⟩

theorem corr_nextS (s : Expr) (ts : List Token) (h : Corr s ts) : Corr s.nextS ts.tail := by
  cases hp : s.peeked with
  | some o =>
    have hs : s.nextS = ⟨s.chars, none⟩ := by
      unfold Expr.nextS
      rw [hp]
    rw [hs]
    unfold Corr at h ⊢
    rw [hp] at h
    cases o with
    | some t =>
      have h2 : ∃ ts2, ts = t :: ts2 ∧ Rendering ts2 s.chars := h
      obtain ⟨ts2, rfl, hr⟩ := h2
      exact hr
    | none =>
      have h2 : ts = [] ∧ s.chars = [] := h
      rw [h2.1, h2.2]
      exact Rendering.nil
  | none =>
    have h2 : Rendering ts s.chars := by
      unfold Corr at h
      rw [hp] at h
      exact h
    have hs : s.nextS = ⟨(tokNext s.chars).2, none⟩ := by
      unfold Expr.nextS
      rw [hp]
    rw [hs]
    unfold Corr
    cases ts with
    | nil =>
      have heq := (rendering_tokNext _ _ h2).1 rfl
      rw [heq]
      exact Rendering.nil
    | cons t ts2 =>
      obtain ⟨cs2, heq, hr2⟩ := (rendering_tokNext _ _ h2).2 t ts2 rfl
      rw [heq]
      exact hr2

/-! ## Simulation of the character-level parser by the token-level parser -/

theorem computeExprT_succ (fuel : Nat) (min_prec : Int) (ts : List Token) :
    computeExprT (fuel+1) min_prec ts =
      match computeAtomT fuel ts with
      | .ok atom_l ts1 => exprLoopT fuel min_prec atom_l ts1
      | r => r := rfl

theorem exprLoopT_succ (fuel : Nat) (min_prec atom_l : Int) (ts : List Token) :
    exprLoopT (fuel+1) min_prec atom_l ts =
      match ts.head? with
      | none => .ok atom_l ts
      | some token =>
        if !token.is_operator || decide (token.precedence < min_prec) then .ok atom_l ts
        else
          let next_prec := if token.assoc = ASSOC_LEFT then token.precedence + 1
            else token.precedence
          match computeExprT fuel next_prec ts.tail with
          | .ok atom_r ts3 =>
            match token.compute atom_l atom_r with
            | some (some re) => exprLoopT fuel min_prec re ts3
            | some none => .fault
            | none => .err "Unknown expression" ts3
          | r => r := rfl

theorem computeAtomT_succ (fuel : Nat) (ts : List Token) :
    computeAtomT (fuel+1) ts =
      match ts.head? with
      | some (.Number n) => .ok n ts.tail
      | some .LeftParen =>
        match computeExprT fuel 1 ts.tail with
        | .ok result ts3 =>
          match ts3.head? with
          | some .RightParen => .ok result ts3.tail
          | _ => .err "Unexpected character" ts3.tail
        | r => r
      | _ => .err "Expecting a number or left paren" ts := rfl

theorem parser_sim (fuel : Nat) :
    (∀ s ts, Corr s ts → ResRel (compute_atom fuel s) (computeAtomT fuel ts)) ∧
    (∀ min_prec atom_l s ts, Corr s ts →
      ResRel (expr_loop fuel min_prec atom_l s) (exprLoopT fuel min_prec atom_l ts)) ∧
    (∀ min_prec s ts, Corr s ts →
      ResRel (compute_expression fuel min_prec s) (computeExprT fuel min_prec ts)) := by
  induction fuel with
  | zero => exact ⟨fun s ts h => trivial, fun p a s ts h => trivial, fun p s ts h => trivial⟩
  | succ fuel ih =>
    obtain ⟨ihA, ihL, ihE⟩ := ih
    refine ⟨fun s ts h => ?_, fun p a s ts h => ?_, fun p s ts h => ?_⟩
    · rw [compute_atom_succ, computeAtomT_succ, corr_look s ts h]
      cases ts with
      | nil => exact rfl
      | cons t ts2 =>
        dsimp only [List.head?, List.tail]
        cases t with
        | Number n => exact ⟨rfl, corr_nextS _ _ (corr_peekS _ _ h)⟩
        | LeftParen =>
          dsimp only
          have hcorr2 : Corr s.peekS.nextS ts2 := corr_nextS _ _ (corr_peekS _ _ h)
          have hrel := ihE 1 s.peekS.nextS ts2 hcorr2
          cases he : compute_expression fuel 1 s.peekS.nextS with
          | ok v s3 =>
            cases het : computeExprT fuel 1 ts2 with
            | ok w ts3 =>
              rw [he, het] at hrel
              have hrel2 : v = w ∧ Corr s3 ts3 := hrel
              obtain ⟨rfl, hc3⟩ := hrel2
              dsimp only
              rw [corr_look s3 ts3 hc3]
              cases ts3 with
              | nil => exact rfl
              | cons t4 ts4 =>
                cases t4 with
                | RightParen => exact ⟨rfl, corr_nextS _ _ hc3⟩
                | Number m => exact rfl
                | Plus => exact rfl
                | Minus => exact rfl
                | Mutiply => exact rfl
                | Divide => exact rfl
                | Power => exact rfl
                | LeftParen => exact rfl
            | err m2 ts3 =>
              rw [he, het] at hrel
              exact False.elim hrel
            | fault =>
              rw [he, het] at hrel
              exact False.elim hrel
            | noFuel =>
              rw [he, het] at hrel
              exact False.elim hrel
          | err m s3 =>
            cases het : computeExprT fuel 1 ts2 with
            | ok w ts3 =>
              rw [he, het] at hrel
              exact False.elim hrel
            | err m2 ts3 =>
              rw [he, het] at hrel
              exact hrel
            | fault =>
              rw [he, het] at hrel
              exact False.elim hrel
            | noFuel =>
              rw [he, het] at hrel
              exact False.elim hrel
          | fault =>
            cases het : computeExprT fuel 1 ts2 with
            | ok w ts3 =>
              rw [he, het] at hrel
              exact False.elim hrel
            | err m2 ts3 =>
              rw [he, het] at hrel
              exact False.elim hrel
            | fault => exact trivial
            | noFuel =>
              rw [he, het] at hrel
              exact False.elim hrel
          | noFuel =>
            cases het : computeExprT fuel 1 ts2 with
            | ok w ts3 =>
              rw [he, het] at hrel
              exact False.elim hrel
            | err m2 ts3 =>
              rw [he, het] at hrel
              exact False.elim hrel
            | fault =>
              rw [he, het] at hrel
              exact False.elim hrel
            | noFuel => exact trivial
        | Plus => exact rfl
        | Minus => exact rfl
        | Mutiply => exact rfl
        | Divide => exact rfl
        | Power => exact rfl
        | RightParen => exact rfl
    · rw [expr_loop_succ, exprLoopT_succ, corr_look s ts h]
      cases ts with
      | nil => exact ⟨rfl, corr_peekS _ _ h⟩
      | cons token ts2 =>
        dsimp only [List.head?, List.tail]
        by_cases hc : (!token.is_operator || decide (token.precedence < p)) = true
        · rw [if_pos hc, if_pos hc]
          exact ⟨rfl, corr_peekS _ _ h⟩
        · rw [if_neg hc, if_neg hc]
          have hcorr2 : Corr s.peekS.nextS ts2 := corr_nextS _ _ (corr_peekS _ _ h)
          have hrel := ihE (if token.assoc = ASSOC_LEFT then token.precedence + 1
            else token.precedence) s.peekS.nextS ts2 hcorr2
          cases he : compute_expression fuel (if token.assoc = ASSOC_LEFT then
              token.precedence + 1 else token.precedence) s.peekS.nextS with
          | ok atom_r s3 =>
            cases het : computeExprT fuel (if token.assoc = ASSOC_LEFT then
                token.precedence + 1 else token.precedence) ts2 with
            | ok br ts3 =>
              rw [he, het] at hrel
              have hrel2 : atom_r = br ∧ Corr s3 ts3 := hrel
              obtain ⟨rfl, hc3⟩ := hrel2
              dsimp only
              cases hc2 : token.compute a atom_r with
              | some o =>
                cases o with
                | some re => exact ihL p re s3 ts3 hc3
                | none => exact trivial
              | none => exact rfl
            | err m2 ts3 =>
              rw [he, het] at hrel
              exact False.elim hrel
            | fault =>
              rw [he, het] at hrel
              exact False.elim hrel
            | noFuel =>
              rw [he, het] at hrel
              exact False.elim hrel
          | err m s3 =>
            cases het : computeExprT fuel (if token.assoc = ASSOC_LEFT then
                token.precedence + 1 else token.precedence) ts2 with
            | ok br ts3 =>
              rw [he, het] at hrel
              exact False.elim hrel
            | err m2 ts3 =>
              rw [he, het] at hrel
              exact hrel
            | fault =>
              rw [he, het] at hrel
              exact False.elim hrel
            | noFuel =>
              rw [he, het] at hrel
              exact False.elim hrel
          | fault =>
            cases het : computeExprT fuel (if token.assoc = ASSOC_LEFT then
                token.precedence + 1 else token.precedence) ts2 with
            | ok br ts3 =>
              rw [he, het] at hrel
              exact False.elim hrel
            | err m2 ts3 =>
              rw [he, het] at hrel
              exact False.elim hrel
            | fault => exact trivial
            | noFuel =>
              rw [he, het] at hrel
              exact False.elim hrel
          | noFuel =>
            cases het : computeExprT fuel (if token.assoc = ASSOC_LEFT then
                token.precedence + 1 else token.precedence) ts2 with
            | ok br ts3 =>
              rw [he, het] at hrel
              exact False.elim hrel
            | err m2 ts3 =>
              rw [he, het] at hrel
              exact False.elim hrel
            | fault =>
              rw [he, het] at hrel
              exact False.elim hrel
            | noFuel => exact trivial
    · rw [compute_expression_succ, computeExprT_succ]
      have hrel := ihA s ts h
      cases ha : compute_atom fuel s with
      | ok atom_l s1 =>
        cases hat : computeAtomT fuel ts with
        | ok b ts1 =>
          rw [ha, hat] at hrel
          have hrel2 : atom_l = b ∧ Corr s1 ts1 := hrel
          obtain ⟨rfl, hc1⟩ := hrel2
          exact ihL p atom_l s1 ts1 hc1
        | err m2 ts1 =>
          rw [ha, hat] at hrel
          exact False.elim hrel
        | fault =>
          rw [ha, hat] at hrel
          exact False.elim hrel
        | noFuel =>
          rw [ha, hat] at hrel
          exact False.elim hrel
      | err m s1 =>
        cases hat : computeAtomT fuel ts with
        | ok b ts1 =>
          rw [ha, hat] at hrel
          exact False.elim hrel
        | err m2 ts1 =>
          rw [ha, hat] at hrel
          exact hrel
        | fault =>
          rw [ha, hat] at hrel
          exact False.elim hrel
        | noFuel =>
          rw [ha, hat] at hrel
          exact False.elim hrel
      | fault =>
        cases hat : computeAtomT fuel ts with
        | ok b ts1 =>
          rw [ha, hat] at hrel
          exact False.elim hrel
        | err m2 ts1 =>
          rw [ha, hat] at hrel
          exact False.elim hrel
        | fault => exact trivial
        | noFuel =>
          rw [ha, hat] at hrel
          exact False.elim hrel
      | noFuel =>
        cases hat : computeAtomT fuel ts with
        | ok b ts1 =>
          rw [ha, hat] at hrel
          exact False.elim hrel
        | err m2 ts1 =>
          rw [ha, hat] at hrel
          exact False.elim hrel
        | fault =>
          rw [ha, hat] at hrel
          exact False.elim hrel
        | noFuel => exact trivial

theorem evaluation_sim (fuel : Nat) (s : Expr) (ts : List Token) (h : Corr s ts) :
    (evaluation fuel s).obs = (evaluationT fuel ts).obs := by
  unfold evaluation evaluationT
  have hrel := (parser_sim fuel).2.2 1 s ts h
  cases he : compute_expression fuel 1 s with
  | ok v s1 =>
    cases het : computeExprT fuel 1 ts with
    | ok w ts1 =>
      rw [he, het] at hrel
      have hrel2 : v = w ∧ Corr s1 ts1 := hrel
      obtain ⟨rfl, hcc⟩ := hrel2
      dsimp only
      rw [corr_look s1 ts1 hcc]
      by_cases hh : ts1.head?.isSome = true
      · rw [if_pos hh, if_pos hh]
        rfl
      · rw [if_neg hh, if_neg hh]
        rfl
    | err m2 ts1 =>
      rw [he, het] at hrel
      exact False.elim hrel
    | fault =>
      rw [he, het] at hrel
      exact False.elim hrel
    | noFuel =>
      rw [he, het] at hrel
      exact False.elim hrel
  | err m s1 =>
    cases het : computeExprT fuel 1 ts with
    | ok w ts1 =>
      rw [he, het] at hrel
      exact False.elim hrel
    | err m2 ts1 =>
      rw [he, het] at hrel
      have hm : m = m2 := hrel
      subst hm
      rfl
    | fault =>
      rw [he, het] at hrel
      exact False.elim hrel
    | noFuel =>
      rw [he, het] at hrel
      exact False.elim hrel
  | fault =>
    cases het : computeExprT fuel 1 ts with
    | ok w ts1 =>
      rw [he, het] at hrel
      exact False.elim hrel
    | err m2 ts1 =>
      rw [he, het] at hrel
      exact False.elim hrel
    | fault => rfl
    | noFuel =>
      rw [he, het] at hrel
      exact False.elim hrel
  | noFuel =>
    cases het : computeExprT fuel 1 ts with
    | ok w ts1 =>
      rw [he, het] at hrel
      exact False.elim hrel
    | err m2 ts1 =>
      rw [he, het] at hrel
      exact False.elim hrel
    | fault =>
      rw [he, het] at hrel
      exact False.elim hrel
    | noFuel => rfl

/-- C8: inserting or removing arbitrary whitespace between the tokens of an
expression never changes the result of evaluate: any two source strings
that render the same token list (Rendering allows arbitrary whitespace
between tokens) evaluate identically; in particular 1+2 and well-spaced
variants both give 3. -/
theorem C8_whitespace_invariance :
    (∀ (ts : List Token) (s1 s2 : String), Rendering ts s1.toList →
      Rendering ts s2.toList → evaluate s1 = evaluate s2) ∧
    evaluate "1+2" = .ok 3 ∧ evaluate " 1 + 2 " = .ok 3 := by
  refine ⟨fun ts s1 s2 h1 h2 => ?_, by decide, by decide⟩
  have key : ∀ (s : String), Rendering ts s.toList → ∀ g, evalFuel s ≤ g →
      evaluate s = (evaluationT g ts).obs := by
    intro s hs g hg
    have hsize : 2 * (Expr.new s).size + 4 ≤ evalFuel s := by
      rw [size_new]
      unfold evalFuel
      omega
    have hnf := evaluation_no_noFuel (evalFuel s) (Expr.new s) hsize
    have hmono := evaluation_fuel_mono (evalFuel s) g (Expr.new s) hg hnf
    have hcorr : Corr (Expr.new s) ts := hs
    unfold evaluate
    rw [← hmono, evaluation_sim g (Expr.new s) ts hcorr]
  rw [key s1 h1 (max (evalFuel s1) (evalFuel s2)) (le_max_left _ _),
    key s2 h2 (max (evalFuel s1) (evalFuel s2)) (le_max_right _ _)]

/-- Witness for C8: the same token list rendered without and with spaces. -/
theorem C8_whitespace_invariance_witness : evaluate "1+2" = evaluate " 1 + 2 " := by
  have hb1 : numBoundary (Token.Number 1) ['+', '2'] := by
    intro c hcc
    simp only [List.head?] at hcc
    cases hcc
    decide
  have hb2 : numBoundary (Token.Number 2) ([] : List Char) := by
    intro c hcc
    exact Option.noConfusion hcc
  have hb3 : numBoundary (Token.Number 1) [' ', '+', ' ', '2', ' '] := by
    intro c hcc
    simp only [List.head?] at hcc
    cases hcc
    decide
  have hb4 : numBoundary (Token.Number 2) [' '] := by
    intro c hcc
    simp only [List.head?] at hcc
    cases hcc
    decide
  have r2 : Rendering [Token.Number 1, Token.Plus, Token.Number 2] " 1 + 2 ".toList := by
    refine Rendering.ws ' ' _ _ (by decide) ?_
    refine Rendering.tok (Token.Number 1) ['1'] [' ', '+', ' ', '2', ' '] _
      ⟨by decide, by decide, by decide, by decide⟩ hb3 ?_
    refine Rendering.ws ' ' _ _ (by decide) ?_
    refine Rendering.tok Token.Plus ['+'] [' ', '2', ' '] _ rfl trivial ?_
    refine Rendering.ws ' ' _ _ (by decide) ?_
    refine Rendering.tok (Token.Number 2) ['2'] [' '] _
      ⟨by decide, by decide, by decide, by decide⟩ hb4 ?_
    exact Rendering.ws ' ' _ _ (by decide) Rendering.nil
  have r1 : Rendering [Token.Number 1, Token.Plus, Token.Number 2] "1+2".toList := by
    refine Rendering.tok (Token.Number 1) ['1'] ['+', '2'] _
      ⟨by decide, by decide, by decide, by decide⟩ hb1 ?_
    refine Rendering.tok Token.Plus ['+'] ['2'] _ rfl trivial ?_
    refine Rendering.tok (Token.Number 2) ['2'] [] _
      ⟨by decide, by decide, by decide, by decide⟩ hb2 ?_
    exact Rendering.nil
  exact C8_whitespace_invariance.1 [Token.Number 1, Token.Plus, Token.Number 2]
    "1+2" " 1 + 2 " r1 r2

end ExprEval
